import Mathlib

/-!
Verification of the CookieReaderExtension browser extension.

The extension has two components: a background "Holder" keeping a mutable
buffer (`cookiesHeap`) of collected cookie records, and a popup "Collector"
that derives domain variants for the current page, collects cookies, merges
them into the buffer (deduplicating by the composite key `name + "_" + domain`)
and exports the buffer to the clipboard.

We shallowly embed the relevant operations:
  * `getSubdomains` (CookieManager.getSubdomains / CookieProcessor.getSubdomains),
  * `mergeAndDedupeCookies` (CookieManager.mergeAndDedupeCookies, also the
    inline merge in popup.js handleGetCookies),
  * `cleanCookie` (CookieManager.cleanCookie),
  * the Holder message listener (background.js),
  * the popup flows `handleGetCookies` / `handleCopyToClipboard`, with the
    external calls (tab query, cookie store, clipboard, transport) abstracted
    as explicit inputs: the collected cookie list and an optional thrown error.

JavaScript `Map` and plain objects are modelled as insertion-ordered
association lists: `Map.set` / object-spread-with-override replace the value
at the existing key position, or append a fresh entry.
-/

/-- A cookie record as held in the heap.  The merge logic only inspects
`name` and `domain`; `value` is carried along (absent field = `none`) so that
"last write wins" is observable. -/
structure Cookie where
  name : String
  domain : String
  value : Option String
  deriving DecidableEq, Repr

/-- The identity key of a record: the template string `name_domain`. -/
def cookieKey (c : Cookie) : String := c.name ++ "_" ++ c.domain

/-- JavaScript `Map.set` (also object spread with a later override) on an
insertion-ordered association list: overwrite the value at the existing
key position, otherwise append a fresh entry at the end. -/
def mapSet {α : Type} : List (String × α) → String → α → List (String × α)
  | [], k, v => [(k, v)]
  | p :: rest, k, v => if p.1 = k then (k, v) :: rest else p :: mapSet rest k v

/-- One step of the merge fold: `cookieMap.set(name_domain, cookie)`. -/
def heapStep (m : List (String × Cookie)) (c : Cookie) : List (String × Cookie) :=
  mapSet m (cookieKey c) c

/-- CookieManager.mergeAndDedupeCookies: spread both arrays into one list,
fold it into a Map keyed by `name_domain` (later entries overwrite earlier),
return `Array.from(map.values())`. -/
def mergeAndDedupeCookies (existingCookies newCookies : List Cookie) : List Cookie :=
  (((existingCookies ++ newCookies).foldl heapStep []).map Prod.snd)

/-- Modelled from the spec: the last record of `l` carrying identity key `k`
("later entries overwrite earlier ones"). -/
def lastWith (l : List Cookie) (k : String) : Option Cookie :=
  l.foldl (fun acc c => if cookieKey c = k then some c else acc) none

/-- JavaScript `Set.add` on an insertion-ordered list: keep the set unchanged
if the element is already present, otherwise append it. -/
def setAdd (s : List String) (x : String) : List String :=
  if x ∈ s then s else s ++ [x]

/-- CookieManager.getSubdomains: split the hostname on dots; for every
`i < parts.length - 1` add `parts.slice(i).join(".")` bare and with a leading
dot; if there is more than one label also add `parts.slice(-2).join(".")`
bare and with a leading dot; return the insertion-ordered set as an array. -/
def getSubdomains (hostname : String) : List String :=
  let parts := hostname.splitOn "."
  let loopAdds := (List.range (parts.length - 1)).flatMap fun i =>
    [String.intercalate "." (parts.drop i),
     "." ++ String.intercalate "." (parts.drop i)]
  let mainAdds :=
    if 1 < parts.length then
      [String.intercalate "." (parts.drop (parts.length - 2)),
       "." ++ String.intercalate "." (parts.drop (parts.length - 2))]
    else []
  (loopAdds ++ mainAdds).foldl setAdd []

/-- A field value of a raw cookie object, as delivered by the cookie store.
Values are opaque to `cleanCookie`; strings and booleans cover the fields the
claims exercise. -/
inductive JField where
  | s (v : String)
  | b (v : Bool)
  deriving DecidableEq, Repr

/-- A raw JavaScript object as an insertion-ordered association list. -/
def objGet (o : List (String × JField)) (k : String) : Option JField :=
  (o.find? fun p => decide (p.1 = k)).map Prod.snd

/-- CookieManager.cleanCookie: rest-destructure away `storeId`, `hostOnly`,
`expirationDate`, `session`, then spread and set `url` to the page origin. -/
def cleanCookie (cookie : List (String × JField)) (origin : String) :
    List (String × JField) :=
  let cleanedCookie := cookie.filter fun p =>
    !(p.1 = "storeId" ∨ p.1 = "hostOnly" ∨ p.1 = "expirationDate" ∨ p.1 = "session" : Bool)
  mapSet cleanedCookie "url" (JField.s origin)

/-- A runtime message as received by the background listener; only the two
fields the listener reads are modelled. -/
structure HolderMessage where
  type : String
  value : List Cookie
  deriving DecidableEq, Repr

/-- A response sent back by the background listener. -/
inductive HolderResponse where
  | value (v : List Cookie)
  | status (s : String)
  deriving DecidableEq, Repr

/-- background.js onMessage listener: answer `getCookiesHeap` with the current
heap, replace the heap and answer `status: success` on `setCookiesHeap`, and
send no response otherwise.  Returns the new heap and the optional response. -/
def holderStep (cookiesHeap : List Cookie) (message : HolderMessage) :
    List Cookie × Option HolderResponse :=
  if message.type = "getCookiesHeap" then
    (cookiesHeap, some (HolderResponse.value cookiesHeap))
  else if message.type = "setCookiesHeap" then
    (message.value, some (HolderResponse.status "success"))
  else (cookiesHeap, none)

/-- The popup's two output areas (`status` and `error` innerHTML). -/
structure UIState where
  status : String
  error : String
  deriving DecidableEq, Repr

def copySuccessMsg : String := "Cookie успешно скопирован в буфер обмена!"

def emptyHeapMsg : String := "Ошибка при копировании: CookiesHeap is Empty"

def cookiesCountMsg (count : Nat) : String :=
  "Собрано <b>" ++ toString count ++ "</b> cookies"

/-- CookieManager.handleGetCookies.  External effects are explicit inputs:
`collected` is what `getAllCookies` returned for the page, `extErr` is the
message of an exception thrown by any awaited external call (tab query,
cookie store, heap read, heap write) before the state is committed, `none`
meaning every call succeeded.  Returns the popup UI state and the Holder's
buffer after the action. -/
def handleGetCookies (ui : UIState) (heap collected : List Cookie)
    (extErr : Option String) : UIState × List Cookie :=
  match extErr with
  | some m => ({ ui with error := "Ошибка: " ++ m }, heap)
  | none =>
    let updatedHeap := mergeAndDedupeCookies heap collected
    if heap.length < updatedHeap.length then
      ({ status := cookiesCountMsg updatedHeap.length, error := "" }, updatedHeap)
    else (ui, heap)

/-- The replace-all write the get-cookies flow sends to the Holder, `none`
when no write is sent (part_000: write only when the merged length exceeds
the previous heap length). -/
def getCookiesWrite (heap collected : List Cookie) : Option (List Cookie) :=
  let updatedHeap := mergeAndDedupeCookies heap collected
  if heap.length < updatedHeap.length then some updatedHeap else none

/-- The same write decision in the popup.js variant: return early (no write)
exactly when the merged length equals the previous heap length. -/
def getCookiesWritePopup (heap collected : List Cookie) : Option (List Cookie) :=
  let updatedHeap := mergeAndDedupeCookies heap collected
  if updatedHeap.length = heap.length then none else some updatedHeap

/-- CookieManager.handleCopyToClipboard.  `clipErr` is the message of an
exception thrown by the clipboard write (`none` = the write succeeded).
On an empty heap the flow reports the empty-heap error and stops; on success
it clears the error, reports success and writes `[]` back to the Holder; a
clipboard failure lands in the catch block, leaving the heap untouched. -/
def handleCopyToClipboard (ui : UIState) (heap : List Cookie)
    (clipErr : Option String) : UIState × List Cookie :=
  if heap.length = 0 then ({ ui with error := emptyHeapMsg }, heap)
  else
    match clipErr with
    | some m => ({ ui with error := "Ошибка при копировании: " ++ m }, heap)
    | none => ({ status := copySuccessMsg, error := "" }, [])

/-- A JavaScript value as it can appear in `response?.status`: the optional
chain yields `undefined` when the response is nullish or has no such field,
and the listener only ever stores strings there; booleans arise from the `!`
operator. -/
inductive JSVal where
  | undefined
  | null
  | boolv (b : Bool)
  | str (s : String)
  deriving DecidableEq, Repr

/-- JavaScript truthiness for the modelled values. -/
def truthy : JSVal → Bool
  | .undefined => false
  | .null => false
  | .boolv b => b
  | .str s => !(s == "")

/-- The JavaScript `!` operator: always produces a boolean. -/
def jsNot (v : JSVal) : JSVal := JSVal.boolv (!truthy v)

/-- JavaScript strict equality `===` on the modelled values: values of
different types are never strictly equal. -/
def strictEq : JSVal → JSVal → Bool
  | .undefined, .undefined => true
  | .null, .null => true
  | .boolv a, .boolv b => a == b
  | .str a, .str b => a == b
  | _, _ => false

/-- The guard of chromeApi.setCookiesHeap: `!response?.status === "success"`,
which by precedence is `(!response?.status) === "success"`; the function
throws exactly when this is truthy. -/
def setCookiesHeapThrows (responseStatus : JSVal) : Bool :=
  strictEq (jsNot responseStatus) (JSVal.str "success")

/-- chromeApi.setCookiesHeap after the transport delivered a response whose
`status` field is `responseStatus`: throw the update-failure error when the
guard is truthy, otherwise report success. -/
def setCookiesHeapResult (responseStatus : JSVal) : Except String String :=
  if setCookiesHeapThrows responseStatus then
    Except.error "Failed to update global variable"
  else Except.ok "Global variable updated successfully"

/-! ### Lemmas about `mapSet` -/

theorem find?_mapSet {α : Type} (m : List (String × α)) (k k' : String) (v : α) :
    (mapSet m k v).find? (fun p => decide (p.1 = k')) =
      if k = k' then some (k, v) else m.find? (fun p => decide (p.1 = k')) := by
  induction m with
  | nil =>
    by_cases h : k = k' <;> simp [mapSet, List.find?, h]
  | cons p rest ih =>
    by_cases hp : p.1 = k
    · by_cases h : k = k'
      · subst h
        simp [mapSet, hp, List.find?]
      · simp [mapSet, hp, List.find?]
        have hp' : ¬ p.1 = k' := by
          intro hc; exact h (hp ▸ hc)
        simp [hp', h]
    · by_cases h : k = k'
      · subst h
        have hp' : ¬ p.1 = k := hp
        simp [mapSet, hp, List.find?, hp', ih]
      · simp only [mapSet, hp, if_neg]
        by_cases hq : p.1 = k'
        · simp [List.find?, hq, h]
        · simp [List.find?, hq, ih, h]

theorem keys_mapSet {α : Type} (m : List (String × α)) (k : String) (v : α) :
    (mapSet m k v).map Prod.fst =
      if k ∈ m.map Prod.fst then m.map Prod.fst else m.map Prod.fst ++ [k] := by
  induction m with
  | nil => simp [mapSet]
  | cons p rest ih =>
    by_cases hp : p.1 = k
    · simp [mapSet, hp]
    · have : ¬ k = p.1 := fun h => hp h.symm
      simp [mapSet, hp, ih, this]
      by_cases hk : k ∈ rest.map Prod.fst <;> simp [hk, this]

theorem nodup_keys_mapSet {α : Type} (m : List (String × α)) (k : String) (v : α)
    (h : (m.map Prod.fst).Nodup) : ((mapSet m k v).map Prod.fst).Nodup := by
  rw [keys_mapSet]
  by_cases hk : k ∈ m.map Prod.fst
  · simp [hk, h]
  · simp [hk]
    exact List.Nodup.append h (List.nodup_singleton k) (by simpa using hk)

theorem mem_mapSet {α : Type} (m : List (String × α)) (k : String) (v : α)
    (q : String × α) (h : q ∈ mapSet m k v) : q = (k, v) ∨ q ∈ m := by
  induction m with
  | nil => simp [mapSet] at h; simp [h]
  | cons p rest ih =>
    by_cases hp : p.1 = k
    · simp [mapSet, hp] at h
      rcases h with h | h
      · exact Or.inl h
      · exact Or.inr (List.mem_cons_of_mem _ h)
    · simp [mapSet, hp] at h
      rcases h with h | h
      · exact Or.inr (by simp [h])
      · rcases ih h with h' | h'
        · exact Or.inl h'
        · exact Or.inr (List.mem_cons_of_mem _ h')

theorem length_mapSet_ge {α : Type} (m : List (String × α)) (k : String) (v : α) :
    m.length ≤ (mapSet m k v).length := by
  induction m with
  | nil => simp [mapSet]
  | cons p rest ih =>
    by_cases hp : p.1 = k
    · simp [mapSet, hp]
    · simp [mapSet, hp]
      omega

theorem mapSet_of_not_mem {α : Type} (m : List (String × α)) (k : String) (v : α)
    (h : k ∉ m.map Prod.fst) : mapSet m k v = m ++ [(k, v)] := by
  induction m with
  | nil => simp [mapSet]
  | cons p rest ih =>
    simp at h
    have hp : ¬ p.1 = k := fun hc => h.1 hc.symm
    simp [mapSet, hp, ih (by simpa using h.2)]

/-! ### Lemmas about the merge fold -/

theorem lastWith_foldl_some (l : List Cookie) (k : String) (a : Option Cookie) :
    l.foldl (fun acc c => if cookieKey c = k then some c else acc) a =
      match l.foldl (fun acc c => if cookieKey c = k then some c else acc) none with
      | some c => some c
      | none => a := by
  induction l generalizing a with
  | nil => simp
  | cons c t ih =>
    by_cases hc : cookieKey c = k
    · simp only [List.foldl_cons, hc, if_pos]
      rw [ih (some c)]
      cases ht : t.foldl (fun acc c => if cookieKey c = k then some c else acc) none <;> simp
    · simp only [List.foldl_cons, hc, if_neg, not_false_iff]
      exact ih a

theorem find?_foldl_heapStep (l : List Cookie) (m : List (String × Cookie)) (k : String) :
    (l.foldl heapStep m).find? (fun p => decide (p.1 = k)) =
      match lastWith l k with
      | some c => some (k, c)
      | none => m.find? (fun p => decide (p.1 = k)) := by
  induction l generalizing m with
  | nil => simp [lastWith]
  | cons c t ih =>
    simp only [List.foldl_cons]
    rw [ih]
    by_cases hc : cookieKey c = k
    · have hl : lastWith (c :: t) k =
          match lastWith t k with
          | some c' => some c'
          | none => some c := by
        simp only [lastWith, List.foldl_cons, hc, if_pos]
        exact lastWith_foldl_some t k (some c)
      rw [hl]
      cases ht : lastWith t k with
      | some c' => simp
      | none =>
        simp only
        show (heapStep m c).find? (fun p => decide (p.1 = k)) = some (k, c)
        unfold heapStep
        rw [find?_mapSet, if_pos hc]
        rw [hc]
    · have hl : lastWith (c :: t) k = lastWith t k := by
        simp [lastWith, hc]
      rw [hl]
      cases ht : lastWith t k with
      | some c' => simp
      | none =>
        simp only
        show (heapStep m c).find? (fun p => decide (p.1 = k)) =
          m.find? (fun p => decide (p.1 = k))
        unfold heapStep
        rw [find?_mapSet, if_neg hc]

theorem nodup_keys_foldl (l : List Cookie) (m : List (String × Cookie))
    (h : (m.map Prod.fst).Nodup) : (((l.foldl heapStep m).map Prod.fst)).Nodup := by
  induction l generalizing m with
  | nil => simpa
  | cons c t ih =>
    exact ih _ (nodup_keys_mapSet m (cookieKey c) c h)

theorem mem_keys_foldl (l : List Cookie) (m : List (String × Cookie)) (k : String) :
    k ∈ (l.foldl heapStep m).map Prod.fst ↔
      k ∈ m.map Prod.fst ∨ k ∈ l.map cookieKey := by
  induction l generalizing m with
  | nil => simp
  | cons c t ih =>
    simp only [List.foldl_cons, ih, List.map_cons, List.mem_cons]
    unfold heapStep
    rw [keys_mapSet]
    by_cases hm : cookieKey c ∈ m.map Prod.fst
    · rw [if_pos hm]
      constructor
      · intro h; rcases h with h | h
        · exact Or.inl h
        · exact Or.inr (Or.inr h)
      · intro h; rcases h with h | h | h
        · exact Or.inl h
        · exact Or.inl (h.symm ▸ hm)
        · exact Or.inr h
    · rw [if_neg hm]
      simp only [List.mem_append, List.mem_singleton]
      constructor
      · intro h; rcases h with (h | h) | h
        · exact Or.inl h
        · exact Or.inr (Or.inl h)
        · exact Or.inr (Or.inr h)
      · intro h; rcases h with h | h | h
        · exact Or.inl (Or.inl h)
        · exact Or.inl (Or.inr h)
        · exact Or.inr h

theorem mem_foldl_heapStep (l : List Cookie) (m : List (String × Cookie))
    (q : String × Cookie) (h : q ∈ l.foldl heapStep m) :
    q ∈ m ∨ (q.1 = cookieKey q.2 ∧ q.2 ∈ l) := by
  induction l generalizing m with
  | nil => exact Or.inl h
  | cons c t ih =>
    rcases ih _ h with h' | h'
    · rcases mem_mapSet m (cookieKey c) c q h' with h'' | h''
      · right
        constructor
        · rw [h'']
        · rw [h'']; simp
      · exact Or.inl h''
    · exact Or.inr ⟨h'.1, List.mem_cons_of_mem _ h'.2⟩

theorem length_foldl_heapStep_ge (l : List Cookie) (m : List (String × Cookie)) :
    m.length ≤ (l.foldl heapStep m).length := by
  induction l generalizing m with
  | nil => simp
  | cons c t ih =>
    exact le_trans (length_mapSet_ge m (cookieKey c) c) (ih _)

theorem foldl_heapStep_of_fresh (l : List Cookie) (m : List (String × Cookie))
    (hfresh : ∀ c ∈ l, cookieKey c ∉ m.map Prod.fst)
    (hnd : (l.map cookieKey).Nodup) :
    l.foldl heapStep m = m ++ l.map (fun c => (cookieKey c, c)) := by
  induction l generalizing m with
  | nil => simp
  | cons c t ih =>
    simp only [List.foldl_cons]
    have hstep : heapStep m c = m ++ [(cookieKey c, c)] :=
      mapSet_of_not_mem m (cookieKey c) c (hfresh c (List.mem_cons_self c t))
    rw [hstep]
    simp only [List.map_cons, List.nodup_cons] at hnd
    have hfresh' : ∀ c' ∈ t, cookieKey c' ∉ (m ++ [(cookieKey c, c)]).map Prod.fst := by
      intro c' hc'
      simp only [List.map_append, List.mem_append, List.map_cons, List.map_nil,
        List.mem_singleton, not_or]
      refine ⟨hfresh c' (List.mem_cons_of_mem _ hc'), ?_⟩
      intro hcc
      exact hnd.1 (hcc ▸ List.mem_map_of_mem cookieKey hc')
    rw [ih _ hfresh' hnd.2]
    simp

theorem mem_foldl_setAdd (l : List String) (s : List String) (x : String) :
    x ∈ l.foldl setAdd s ↔ x ∈ s ∨ x ∈ l := by
  induction l generalizing s with
  | nil => simp
  | cons a t ih =>
    simp only [List.foldl_cons, ih, List.mem_cons]
    unfold setAdd
    by_cases ha : a ∈ s
    · rw [if_pos ha]
      constructor
      · intro h; rcases h with h | h
        · exact Or.inl h
        · exact Or.inr (Or.inr h)
      · intro h; rcases h with h | h | h
        · exact Or.inl h
        · exact Or.inl (h ▸ ha)
        · exact Or.inr h
    · rw [if_neg ha]
      simp only [List.mem_append, List.mem_singleton]
      tauto

theorem nodup_foldl_setAdd (l : List String) (s : List String)
    (h : s.Nodup) : (l.foldl setAdd s).Nodup := by
  induction l generalizing s with
  | nil => simpa
  | cons a t ih =>
    apply ih
    unfold setAdd
    by_cases ha : a ∈ s
    · rwa [if_pos ha]
    · rw [if_neg ha]
      exact List.Nodup.append h (List.nodup_singleton a) (by simpa using ha)

theorem find?_congr_of_eq {α : Type} (l : List α) (p q : α → Bool)
    (h : ∀ x ∈ l, p x = q x) : l.find? p = l.find? q := by
  induction l with
  | nil => rfl
  | cons a t ih =>
    have ha := h a (List.mem_cons_self a t)
    cases hp : p a with
    | true =>
      rw [List.find?_cons_of_pos _ hp, List.find?_cons_of_pos _ (by rw [← ha, hp])]
    | false =>
      rw [List.find?_cons_of_neg _ (by simp [hp]),
        List.find?_cons_of_neg _ (by simp [← ha, hp])]
      exact ih fun x hx => h x (List.mem_cons_of_mem _ hx)

theorem entry_key_foldl (l : List Cookie) (q : String × Cookie)
    (h : q ∈ l.foldl heapStep []) : q.1 = cookieKey q.2 := by
  rcases mem_foldl_heapStep l [] q h with h' | h'
  · simp at h'
  · exact h'.1

/-- The record produced by `mergeAndDedupeCookies` for an identity key is the
last record of the concatenation carrying that key. -/
theorem merge_find? (ex inc : List Cookie) (k : String) :
    (mergeAndDedupeCookies ex inc).find? (fun c => decide (cookieKey c = k)) =
      lastWith (ex ++ inc) k := by
  unfold mergeAndDedupeCookies
  rw [List.find?_map]
  have hcongr : ((ex ++ inc).foldl heapStep []).find?
        ((fun c => decide (cookieKey c = k)) ∘ Prod.snd) =
      ((ex ++ inc).foldl heapStep []).find? (fun p => decide (p.1 = k)) := by
    apply find?_congr_of_eq
    intro q hq
    simp [entry_key_foldl (ex ++ inc) q hq]
  rw [hcongr, find?_foldl_heapStep]
  cases h : lastWith (ex ++ inc) k <;> simp

/-- The identity keys of a merge result, read off the records themselves,
are the keys of the underlying association list. -/
theorem merge_map_key (ex inc : List Cookie) :
    (mergeAndDedupeCookies ex inc).map cookieKey =
      ((ex ++ inc).foldl heapStep []).map Prod.fst := by
  unfold mergeAndDedupeCookies
  rw [List.map_map]
  apply List.map_congr_left
  intro q hq
  exact (entry_key_foldl (ex ++ inc) q hq).symm

/-- The merge result never contains two records with the same identity key. -/
theorem merge_nodup_keys (ex inc : List Cookie) :
    ((mergeAndDedupeCookies ex inc).map cookieKey).Nodup := by
  rw [merge_map_key]
  exact nodup_keys_foldl (ex ++ inc) [] (by simp)

/-- The identity keys of the merge result are exactly those of the inputs. -/
theorem merge_mem_keys (ex inc : List Cookie) (k : String) :
    k ∈ (mergeAndDedupeCookies ex inc).map cookieKey ↔
      k ∈ (ex ++ inc).map cookieKey := by
  rw [merge_map_key, mem_keys_foldl]
  simp

/-- Every record in the merge result is one of the input records. -/
theorem merge_mem (ex inc : List Cookie) (c : Cookie)
    (h : c ∈ mergeAndDedupeCookies ex inc) : c ∈ ex ++ inc := by
  unfold mergeAndDedupeCookies at h
  rcases List.mem_map.mp h with ⟨q, hq, hqc⟩
  rcases mem_foldl_heapStep (ex ++ inc) [] q hq with h' | h'
  · simp at h'
  · exact hqc ▸ h'.2

/-- Merging a list whose keys are already distinct with nothing gives it back. -/
theorem merge_nil_of_nodup (X : List Cookie) (h : (X.map cookieKey).Nodup) :
    mergeAndDedupeCookies X [] = X := by
  unfold mergeAndDedupeCookies
  rw [List.append_nil, foldl_heapStep_of_fresh X [] (by simp) h]
  rw [List.nil_append, List.map_map]
  have hid : (Prod.snd ∘ fun c : Cookie => (cookieKey c, c)) = id := rfl
  rw [hid, List.map_id]

/-- Merging never shrinks a key-distinct buffer. -/
theorem merge_length_ge (heap collected : List Cookie)
    (h : (heap.map cookieKey).Nodup) :
    heap.length ≤ (mergeAndDedupeCookies heap collected).length := by
  unfold mergeAndDedupeCookies
  rw [List.length_map, List.foldl_append,
    foldl_heapStep_of_fresh heap [] (by simp) h]
  have := length_foldl_heapStep_ge collected ([] ++ heap.map fun c => (cookieKey c, c))
  simpa using this

/-! ### The claims -/

/-- C1: for a hostname with `k` dot-separated labels, `getSubdomains` returns,
with no duplicates, exactly the bare and leading-dot forms of every suffix
`labels[i:]` for `i` ranging over `0..k-1` (the loop bound `i < k - 1`),
plus the bare and leading-dot last-two-labels form when `k > 1`. -/
theorem getSubdomains_spec (hostname x : String) :
    (x ∈ getSubdomains hostname ↔
      (∃ i < (hostname.splitOn ".").length - 1,
        x = String.intercalate "." ((hostname.splitOn ".").drop i) ∨
        x = "." ++ String.intercalate "." ((hostname.splitOn ".").drop i)) ∨
      (1 < (hostname.splitOn ".").length ∧
        (x = String.intercalate "."
            ((hostname.splitOn ".").drop ((hostname.splitOn ".").length - 2)) ∨
         x = "." ++ String.intercalate "."
            ((hostname.splitOn ".").drop ((hostname.splitOn ".").length - 2))))) ∧
    (getSubdomains hostname).Nodup := by
  constructor
  · unfold getSubdomains
    rw [mem_foldl_setAdd]
    by_cases h : 1 < (hostname.splitOn ".").length <;>
      simp [h, List.mem_flatMap, eq_comm]
  · exact nodup_foldl_setAdd _ [] List.nodup_nil

/-- C2: `mergeAndDedupeCookies existing incoming` folds the concatenation
into a mapping keyed by `name + "_" + domain` with later entries overwriting
earlier ones and returns its values: the result has pairwise-distinct keys,
exactly the keys of the concatenation, and the record found for a key is the
last record of the concatenation with that key; merging `[{name a, domain d}]`
with `[{name a, domain d, value new}]` yields exactly the one record carrying
value `new`. -/
theorem mergeAndDedupe_spec (ex inc : List Cookie) :
    ((mergeAndDedupeCookies ex inc).map cookieKey).Nodup ∧
    (∀ k, k ∈ (mergeAndDedupeCookies ex inc).map cookieKey ↔
      k ∈ (ex ++ inc).map cookieKey) ∧
    (∀ k, (mergeAndDedupeCookies ex inc).find? (fun c => decide (cookieKey c = k)) =
      lastWith (ex ++ inc) k) ∧
    mergeAndDedupeCookies [⟨"a", "d", none⟩] [⟨"a", "d", some "new"⟩] =
      [⟨"a", "d", some "new"⟩] := by
  refine ⟨merge_nodup_keys ex inc, fun k => merge_mem_keys ex inc k,
    fun k => merge_find? ex inc k, ?_⟩
  rfl

/-- C9: right identity of the merge: `mergeAndDedupeCookies X []` has exactly
the identity keys of `X`, every record it contains is a record of `X`, and
when `X` has no duplicate identity keys it equals `X` exactly. -/
theorem mergeAndDedupe_nil_right (X : List Cookie) :
    (∀ k, k ∈ (mergeAndDedupeCookies X []).map cookieKey ↔ k ∈ X.map cookieKey) ∧
    (∀ c ∈ mergeAndDedupeCookies X [], c ∈ X) ∧
    ((X.map cookieKey).Nodup → mergeAndDedupeCookies X [] = X) := by
  refine ⟨fun k => ?_, fun c hc => ?_, merge_nil_of_nodup X⟩
  · rw [merge_mem_keys X [] k, List.append_nil]
  · have := merge_mem X [] c hc
    rwa [List.append_nil] at this

/-- C9 witness: the three conjuncts at the concrete key-distinct buffer
`[{name a, domain d, value v}]`. -/
theorem mergeAndDedupe_nil_right_witness :
    mergeAndDedupeCookies [⟨"a", "d", some "v"⟩] [] = [⟨"a", "d", some "v"⟩] ∧
    ⟨"a", "d", some "v"⟩ ∈ ([⟨"a", "d", some "v"⟩] : List Cookie) :=
  ⟨(mergeAndDedupe_nil_right [⟨"a", "d", some "v"⟩]).2.2 (by decide),
   (mergeAndDedupe_nil_right [⟨"a", "d", some "v"⟩]).2.1 ⟨"a", "d", some "v"⟩
     (by rw [(mergeAndDedupe_nil_right [⟨"a", "d", some "v"⟩]).2.2 (by decide)]; simp)⟩

theorem objGet_mapSet (o : List (String × JField)) (k k' : String) (v : JField) :
    objGet (mapSet o k v) k' = if k = k' then some v else objGet o k' := by
  unfold objGet
  rw [find?_mapSet]
  by_cases h : k = k' <;> simp [h]

theorem find?_filter_of_imp {α : Type} (l : List α) (q p : α → Bool)
    (h : ∀ x, p x = true → q x = true) : (l.filter q).find? p = l.find? p := by
  induction l with
  | nil => rfl
  | cons a t ih =>
    by_cases hq : q a
    · rw [List.filter_cons_of_pos hq]
      cases hp : p a with
      | true => rw [List.find?_cons_of_pos _ hp, List.find?_cons_of_pos _ hp]
      | false =>
        rw [List.find?_cons_of_neg _ (by simp [hp]),
          List.find?_cons_of_neg _ (by simp [hp])]
        exact ih
    · have hp : p a = false := by
        cases hpa : p a with
        | true => exact absurd (h a hpa) hq
        | false => rfl
      rw [List.filter_cons_of_neg (by simpa using hq),
        List.find?_cons_of_neg _ (by simp [hp])]
      exact ih

/-- C3: Buffer dedup invariant: the value the merge write-back stores always
has pairwise-distinct identity keys, and both Buffer-writing flows (the
get-cookies merge write-back and the export's clear-to-empty side effect)
preserve key-distinctness of the Buffer. -/
theorem buffer_dedup_invariant (ui : UIState) (heap collected : List Cookie)
    (extErr clipErr : Option String) :
    ((mergeAndDedupeCookies heap collected).map cookieKey).Nodup ∧
    ((heap.map cookieKey).Nodup →
      (((handleGetCookies ui heap collected extErr).2.map cookieKey).Nodup ∧
       ((handleCopyToClipboard ui heap clipErr).2.map cookieKey).Nodup)) := by
  refine ⟨merge_nodup_keys heap collected, fun h => ⟨?_, ?_⟩⟩
  · unfold handleGetCookies
    cases extErr with
    | some m => simpa
    | none =>
      by_cases hlt : heap.length < (mergeAndDedupeCookies heap collected).length
      · simpa [hlt] using merge_nodup_keys heap collected
      · simpa [hlt]
  · unfold handleCopyToClipboard
    by_cases h0 : heap.length = 0
    · simpa [h0]
    · cases clipErr with
      | some m => simpa [h0]
      | none => simp [h0]

/-- C3 witness: invariant preservation at a concrete key-distinct buffer. -/
theorem buffer_dedup_invariant_witness :
    (((handleGetCookies ⟨"", ""⟩ [⟨"a", "d", none⟩] [⟨"b", "d", none⟩]
        none).2.map cookieKey).Nodup ∧
     ((handleCopyToClipboard ⟨"", ""⟩ [⟨"a", "d", none⟩]
        (none : Option String)).2.map cookieKey).Nodup) :=
  (buffer_dedup_invariant ⟨"", ""⟩ [⟨"a", "d", none⟩] [⟨"b", "d", none⟩]
    none none).2 (by decide)

/-- C4: an export started on a non-empty Buffer replaces the Buffer with the
empty sequence when the clipboard write succeeds, and leaves the Buffer
unchanged when the clipboard write fails. -/
theorem copy_clears_iff_success (ui : UIState) (heap : List Cookie)
    (h : heap ≠ []) :
    (handleCopyToClipboard ui heap none).2 = [] ∧
    (∀ m, (handleCopyToClipboard ui heap (some m)).2 = heap) := by
  have h0 : ¬ heap.length = 0 := by simpa [List.length_eq_zero] using h
  unfold handleCopyToClipboard
  exact ⟨by simp [h0], fun m => by simp [h0]⟩

/-- C4 witness: both branches at a concrete one-record buffer. -/
theorem copy_clears_iff_success_witness :
    (handleCopyToClipboard ⟨"", ""⟩ [⟨"a", "d", none⟩] none).2 = [] ∧
    (handleCopyToClipboard ⟨"", ""⟩ [⟨"a", "d", none⟩] (some "boom")).2 =
      [⟨"a", "d", none⟩] :=
  ⟨(copy_clears_iff_success ⟨"", ""⟩ [⟨"a", "d", none⟩] (by decide)).1,
   (copy_clears_iff_success ⟨"", ""⟩ [⟨"a", "d", none⟩] (by decide)).2 "boom"⟩

/-- C5: `cleanCookie` removes exactly the fields storeId, hostOnly,
expirationDate and session, leaves every other field unchanged, adds a `url`
field bound to the page origin, and maps the claim's concrete example to
exactly the claimed record. -/
theorem cleanCookie_spec (cookie : List (String × JField)) (origin : String) :
    (∀ f, f ≠ "storeId" → f ≠ "hostOnly" → f ≠ "expirationDate" →
      f ≠ "session" → f ≠ "url" →
      objGet (cleanCookie cookie origin) f = objGet cookie f) ∧
    objGet (cleanCookie cookie origin) "storeId" = none ∧
    objGet (cleanCookie cookie origin) "hostOnly" = none ∧
    objGet (cleanCookie cookie origin) "expirationDate" = none ∧
    objGet (cleanCookie cookie origin) "session" = none ∧
    objGet (cleanCookie cookie origin) "url" = some (JField.s origin) ∧
    cleanCookie [("name", JField.s "x"), ("domain", JField.s "d"),
        ("storeId", JField.s "0"), ("hostOnly", JField.b true),
        ("value", JField.s "v")] "https://example.com" =
      [("name", JField.s "x"), ("domain", JField.s "d"), ("value", JField.s "v"),
       ("url", JField.s "https://example.com")] := by
  have hdropped : ∀ f : String, f = "storeId" ∨ f = "hostOnly" ∨
      f = "expirationDate" ∨ f = "session" →
      objGet (cleanCookie cookie origin) f = none := by
    intro f hf
    unfold cleanCookie
    rw [objGet_mapSet, if_neg (by rcases hf with h | h | h | h <;> simp [h])]
    unfold objGet
    rw [List.find?_eq_none.mpr, Option.map_none']
    intro p hp
    simp only [List.mem_filter] at hp
    simp only [decide_eq_true_eq]
    intro hpf
    have := hp.2
    rw [hpf] at this
    rcases hf with h | h | h | h <;> rw [h] at this <;> simp at this
  refine ⟨?_, hdropped _ (by simp), hdropped _ (by simp), hdropped _ (by simp),
    hdropped _ (by simp), ?_, by rfl⟩
  · intro f h1 h2 h3 h4 h5
    unfold cleanCookie
    rw [objGet_mapSet, if_neg (fun h => h5 h.symm)]
    unfold objGet
    rw [find?_filter_of_imp]
    intro x hx
    simp only [decide_eq_true_eq] at hx
    simp only [Bool.not_eq_true', decide_eq_false_iff_not]
    rw [hx]
    simp [h1, h2, h3, h4]
  · unfold cleanCookie
    rw [objGet_mapSet, if_pos rfl]

/-- C5 witness: an untouched field of a concrete cookie is preserved. -/
theorem cleanCookie_spec_witness :
    objGet (cleanCookie [("name", JField.s "x")] "https://example.com") "name" =
      objGet [("name", JField.s "x")] "name" :=
  (cleanCookie_spec [("name", JField.s "x")] "https://example.com").1 "name"
    (by decide) (by decide) (by decide) (by decide) (by decide)

/-- C6: when merging the collected cookies into a key-distinct Buffer
introduces no new identity keys (the merged size did not increase), neither
flow variant sends a replace-all write (part_000 compares with `>` and
popup.js with `!==`) and the Holder's buffer after the action is exactly the
previous heap. -/
theorem no_redundant_write (ui : UIState) (heap collected : List Cookie)
    (hnd : (heap.map cookieKey).Nodup)
    (hle : (mergeAndDedupeCookies heap collected).length ≤ heap.length) :
    getCookiesWrite heap collected = none ∧
    getCookiesWritePopup heap collected = none ∧
    (handleGetCookies ui heap collected none).2 = heap := by
  have hge := merge_length_ge heap collected hnd
  have heq : (mergeAndDedupeCookies heap collected).length = heap.length :=
    le_antisymm hle hge
  have hnlt : ¬ heap.length < (mergeAndDedupeCookies heap collected).length := by
    omega
  refine ⟨?_, ?_, ?_⟩
  · unfold getCookiesWrite; simp [hnlt]
  · unfold getCookiesWritePopup; simp [heq]
  · unfold handleGetCookies; simp [hnlt]

/-- C6 witness: recollecting an already-present identity key sends no write
and leaves the buffer untouched. -/
theorem no_redundant_write_witness :
    getCookiesWrite [⟨"a", "d", none⟩] [⟨"a", "d", some "x"⟩] = none ∧
    getCookiesWritePopup [⟨"a", "d", none⟩] [⟨"a", "d", some "x"⟩] = none ∧
    (handleGetCookies ⟨"", ""⟩ [⟨"a", "d", none⟩] [⟨"a", "d", some "x"⟩]
      none).2 = [⟨"a", "d", none⟩] :=
  no_redundant_write ⟨"", ""⟩ [⟨"a", "d", none⟩] [⟨"a", "d", some "x"⟩]
    (by decide) (by decide)

/-- C7: the Holder answers a getCookiesHeap request with the current buffer
and leaves it unchanged, answers a setCookiesHeap request by replacing the
buffer with the sent value and responding with status success, and sends no
response to any other request type. -/
theorem holder_protocol (heap : List Cookie) (msg : HolderMessage) :
    (msg.type = "getCookiesHeap" →
      holderStep heap msg = (heap, some (HolderResponse.value heap))) ∧
    (msg.type = "setCookiesHeap" →
      holderStep heap msg = (msg.value, some (HolderResponse.status "success"))) ∧
    (msg.type ≠ "getCookiesHeap" → msg.type ≠ "setCookiesHeap" →
      holderStep heap msg = (heap, none)) := by
  unfold holderStep
  refine ⟨fun h => by simp [h], fun h => ?_, fun h1 h2 => by simp [h1, h2]⟩
  rw [if_neg (by rw [h]; decide), if_pos h]

/-- C7 witness: the three request kinds at concrete messages. -/
theorem holder_protocol_witness :
    holderStep [] ⟨"getCookiesHeap", []⟩ = ([], some (HolderResponse.value [])) ∧
    holderStep [] ⟨"setCookiesHeap", [⟨"a", "d", none⟩]⟩ =
      ([⟨"a", "d", none⟩], some (HolderResponse.status "success")) ∧
    holderStep [] ⟨"bogus", []⟩ = ([], none) :=
  ⟨(holder_protocol [] ⟨"getCookiesHeap", []⟩).1 rfl,
   (holder_protocol [] ⟨"setCookiesHeap", [⟨"a", "d", none⟩]⟩).2.1 rfl,
   (holder_protocol [] ⟨"bogus", []⟩).2.2 (by decide) (by decide)⟩

/-- C8 counterexample: a get-cookies action that completes successfully
(no exception; nothing new was found) leaves a previously shown error banner
in place, so the error display is not empty after a successful action. -/
theorem error_banner_counterexample :
    (handleGetCookies ⟨"", "Ошибка: old"⟩ [⟨"a", "d", none⟩] [] none).1.error =
      "Ошибка: old" ∧ "Ошибка: old" ≠ "" :=
  ⟨rfl, by decide⟩

/-- C8 amended: the error banner is set only when an action fails; a
successful action that writes the Buffer (a get-cookies that found new
cookies, or a successful copy) clears the error display; a get-cookies action
that completes successfully without finding anything new leaves the UI,
including any previously shown error, unchanged. -/
theorem error_banner_amended (ui : UIState) (heap collected : List Cookie)
    (m : String) :
    (heap.length < (mergeAndDedupeCookies heap collected).length →
      (handleGetCookies ui heap collected none).1.error = "") ∧
    (¬ heap.length < (mergeAndDedupeCookies heap collected).length →
      (handleGetCookies ui heap collected none).1 = ui) ∧
    (handleGetCookies ui heap collected (some m)).1.error = "Ошибка: " ++ m ∧
    (heap ≠ [] → (handleCopyToClipboard ui heap none).1.error = "") ∧
    (heap ≠ [] → (handleCopyToClipboard ui heap (some m)).1.error =
      "Ошибка при копировании: " ++ m) ∧
    (heap = [] →
      (handleCopyToClipboard ui heap (none : Option String)).1.error =
        emptyHeapMsg) := by
  refine ⟨fun hlt => ?_, fun hnlt => ?_, ?_, fun hne => ?_, fun hne => ?_,
    fun he => ?_⟩
  · unfold handleGetCookies; simp [hlt]
  · unfold handleGetCookies; simp [hnlt]
  · rfl
  · have h0 : ¬ heap.length = 0 := by simpa [List.length_eq_zero] using hne
    unfold handleCopyToClipboard; simp [h0]
  · have h0 : ¬ heap.length = 0 := by simpa [List.length_eq_zero] using hne
    unfold handleCopyToClipboard; simp [h0]
  · subst he; rfl

/-- C8 amended witness: a write-back success and a copy success both clear a
previously shown error. -/
theorem error_banner_amended_witness :
    (handleGetCookies ⟨"", "E"⟩ [] [⟨"a", "d", none⟩] none).1.error = "" ∧
    (handleCopyToClipboard ⟨"", "E"⟩ [⟨"a", "d", none⟩] none).1.error = "" :=
  ⟨(error_banner_amended ⟨"", "E"⟩ [] [⟨"a", "d", none⟩] "m").1 (by decide),
   (error_banner_amended ⟨"", "E"⟩ [⟨"a", "d", none⟩] [] "m").2.2.2.1
     (by decide)⟩

/-- C10: the failure branch of setCookiesHeap is unreachable: for every
deliverable response-status value, `!response?.status === "success"` compares
a boolean against a string, so the guard is false, the update-failure error
is never thrown, and every delivered response is treated as a successful
replace-all. -/
theorem setCookiesHeap_guard_unreachable (v : JSVal) :
    setCookiesHeapThrows v = false ∧
    setCookiesHeapResult v = Except.ok "Global variable updated successfully" := by
  have h : setCookiesHeapThrows v = false := by cases v <;> rfl
  exact ⟨h, by unfold setCookiesHeapResult; rw [h]; rfl⟩
